import Mathlib

/-!
Verification development for the forward-pass core of the
text-generation-inference repository.  The definitions below are shallow
embeddings of:

* `Qwen2VLForConditionalGeneration.get_position_ids`
  (src/backends/gaudi/.../custom_modeling/qwen2_vl.py), modelling torch
  int64 tensors as `List Int`;
* `FlashLlamaAttention.__init__` / `forward` and `FlashLlamaLayer.forward`
  (src/backends/gaudi/.../custom_modeling/flash_llama_modeling.py), with
  tensor kernels kept abstract and the KV cache modelled as a slot-indexed
  partial map;
* the sliding-window model-selection check in `get_model`
  (src/server/text_generation_server/models/__init__.py);
* the block-diagonal vision attention mask of `Qwen2VLAttention.forward`
  (qwen2_vl.py).
-/

/- ------------------------------------------------------------------ -/
/- Multimodal position-id builder (qwen2_vl.py, get_position_ids)     -/
/- ------------------------------------------------------------------ -/

/-- `torch.arange(n)` for an int64 scalar `n` (empty when `n ≤ 0`). -/
def arangeI (n : Int) : List Int :=
  (List.range n.toNat).map Int.ofNat

/-- `x.repeat_interleave(k)`: every element repeated `k` times in place. -/
def repeatInterleaveI (xs : List Int) (k : Nat) : List Int :=
  xs.flatMap fun x => List.replicate k x

/-- `x.repeat(k)`: the whole list tiled `k` times. -/
def tileI (xs : List Int) (k : Nat) : List Int :=
  (List.replicate k xs).flatten

/-- Running-sum helper for `cumsumI`, carrying the accumulated prefix. -/
def cumsumAux (acc : Int) : List Int → List Int
  | [] => []
  | x :: rest => (acc + x) :: cumsumAux (acc + x) rest

/-- `x.cumsum(dim=0)` for a 1-D int tensor. -/
def cumsumI (xs : List Int) : List Int :=
  cumsumAux 0 xs

/-- Index accumulator for `whereEq`; `i` is the index of the head of `xs`
in the original list. -/
def whereEqAux (xs : List Int) (v : Int) (i : Int) : List Int :=
  match xs with
  | [] => []
  | x :: rest =>
    if x = v then i :: whereEqAux rest v (i + 1)
    else whereEqAux rest v (i + 1)

/-- `torch.where(input_ids == v)[0]`: the (increasing) list of indices at
which `xs` holds the value `v`. -/
def whereEq (xs : List Int) (v : Int) : List Int :=
  whereEqAux xs v 0

/-- Element-wise binary op with 1-D torch broadcasting: equal lengths act
pointwise, a length-1 operand broadcasts, anything else is a shape error
(`none`). -/
def bcast2 (f : Int → Int → Int) (xs ys : List Int) : Option (List Int) :=
  if xs.length = ys.length then
    some ((xs.zip ys).map fun p => f p.1 p.2)
  else
    match xs, ys with
    | [x], _ => some (ys.map fun y => f x y)
    | _, [y] => some (xs.map fun x => f x y)
    | _, _ => none

/-- One `(3, L)` stack of position ids: the temporal, height and width
rows produced for a single text run or vision segment. -/
structure PosBlock where
  tRow : List Int
  hRow : List Int
  wRow : List Int
deriving DecidableEq, Repr

/-- `torch.arange(len).view(1, -1).expand(3, -1) + offset`: a text run's
position ids, identical on all three axes. -/
def textBlock (len offset : Int) : PosBlock :=
  let r := (arangeI len).map (· + offset)
  { tRow := r, hRow := r, wRow := r }

/-- The `(3, t*h*w)` stack built for one vision segment from its grid
`(t, h, w)` (heights/widths divided by the spatial merge size, Python
floor division) and offset by the running segment length. -/
def visionBlock (grid : Int × Int × Int) (spatial_merge_size offset : Int) : PosBlock :=
  let t := grid.1
  let h := Int.fdiv grid.2.1 spatial_merge_size
  let w := Int.fdiv grid.2.2 spatial_merge_size
  { tRow := (repeatInterleaveI (arangeI t) (h * w).toNat).map (· + offset)
    hRow := (tileI (repeatInterleaveI (arangeI h) w.toNat) t.toNat).map (· + offset)
    wRow := (tileI (arangeI w) (t * h).toNat).map (· + offset) }

/-- `torch.cat(blocks, dim=1)` on `(3, ·)` stacks. -/
def blockCat (bs : List PosBlock) : PosBlock :=
  { tRow := (bs.map PosBlock.tRow).flatten
    hRow := (bs.map PosBlock.hRow).flatten
    wRow := (bs.map PosBlock.wRow).flatten }

/-- `.reshape(3, -1).transpose(0, 1)`: rows of the final
`[sequence_length, 3]` position-id tensor. -/
def blockRows (b : PosBlock) : List (Int × Int × Int) :=
  (b.tRow.zip (b.hRow.zip b.wRow)).map fun p => (p.1, p.2.1, p.2.2)

/-- `.max()` over a whole `(3, L)` stack; `none` models the torch runtime
error raised on an empty tensor. -/
def blockMax (b : PosBlock) : Option Int :=
  match b.tRow ++ b.hRow ++ b.wRow with
  | [] => none
  | x :: xs => some (xs.foldl max x)

/-- Shallow embedding of `Qwen2VLForConditionalGeneration.get_position_ids`
(qwen2_vl.py).  Token ids and grids are int64 scalars (`Int`); the result
is the list of `(temporal, height, width)` rows, or `none` when the Python
code would raise (shape mismatch in `torch.stack`/broadcasting, an index
out of range, or `.max()` over an empty tensor). -/
def get_position_ids (input_ids : List Int)
    (image_grid_thw : Option (List (Int × Int × Int)))
    (spatial_merge_size vision_start_token_id vision_end_token_id : Int) :
    Option (List (Int × Int × Int)) :=
  match image_grid_thw with
  | none =>
    some ((arangeI (Int.ofNat input_ids.length)).map fun i => (i, i, i))
  | some grids =>
    let input_ids_len : Int := Int.ofNat input_ids.length
    let vision_starts := whereEq input_ids vision_start_token_id
    let vision_ends := whereEq input_ids vision_end_token_id
    -- torch.stack((vision_starts, vision_ends), dim=1) needs equal shapes
    if vision_starts.length ≠ vision_ends.length then none else
    let prev_vision_end := 0 :: vision_ends.dropLast
    let text_lengths_between_vision :=
      (vision_starts.zip prev_vision_end).map fun p => p.1 - p.2 + 1
    let vision_widths_max : List Int :=
      0 :: (grids.dropLast.map fun g => Int.fdiv g.2.2 spatial_merge_size)
    (bcast2 (· + ·) vision_widths_max text_lengths_between_vision).bind fun summed =>
    let vision_segment_lengths := cumsumI summed
    (bcast2 (· - ·) vision_segment_lengths text_lengths_between_vision).bind
      fun text_segment_lengths =>
    let k := vision_starts.length
    if k ≤ grids.length ∧ k ≤ vision_segment_lengths.length ∧
        k ≤ text_segment_lengths.length then
      let llm_pos_ids_list :=
        ((grids.take k).zip (vision_segment_lengths.take k)).map
          fun p => visionBlock p.1 spatial_merge_size p.2
      let text_ranges :=
        ((text_lengths_between_vision.take k).zip (text_segment_lengths.take k)).map
          fun p => textBlock p.1 p.2
      let full := (text_ranges.zip llm_pos_ids_list).flatMap fun p => [p.1, p.2]
      full.getLast?.bind fun lastBlock =>
      (blockMax lastBlock).bind fun mx =>
      vision_ends.getLast?.bind fun lastEnd =>
      let max_s := mx + 1
      let final_text_len := input_ids_len - lastEnd
      let full2 :=
        if 0 < final_text_len then full ++ [textBlock final_text_len max_s]
        else full
      some (blockRows (blockCat full2))
    else none

/- ------------------------------------------------------------------ -/
/- FlashLlamaAttention (flash_llama_modeling.py)                      -/
/- ------------------------------------------------------------------ -/

/-- Symbolic softmax scale: `invSqrt d` denotes `d ** -0.5`
(`1/sqrt(head_dim)`), `mult m` a config-provided `attention_multiplier`. -/
inductive AttnScale where
  | invSqrt (headDim : Nat)
  | mult (m : Rat)
deriving DecidableEq, Repr

/-- The slice of the model config read by `FlashLlamaAttention.__init__`. -/
structure LlamaConfig where
  num_attention_heads : Nat
  hidden_size : Nat
  num_key_value_heads : Nat
  attention_multiplier : Option Rat
deriving DecidableEq, Repr

/-- The constructed attention layer: the fields fixed at construction that
the forward pass reads. -/
structure FlashLlamaAttentionM where
  num_heads : Nat
  head_size : Nat
  num_key_value_heads : Nat
  softmax_scale : AttnScale
  num_groups : Nat
  kv_head_mapping : List Nat
deriving DecidableEq, Repr

/-- Shallow embedding of `FlashLlamaAttention.__init__`: the divisibility
checks raise (`.error`, the code's `ValueError`, the spec's
`ConfigurationError`), otherwise the layer is built with per-rank head
counts, the softmax scale and the GQA head-mapping table
`arange(num_key_value_heads).repeat_interleave(num_groups)`. -/
def mkFlashLlamaAttention (config : LlamaConfig) (world_size : Nat) :
    Except String FlashLlamaAttentionM :=
  let num_heads := config.num_attention_heads
  let head_size := config.hidden_size / num_heads
  let softmax_scale :=
    match config.attention_multiplier with
    | some m => AttnScale.mult m
    | none => AttnScale.invSqrt head_size
  if num_heads % world_size ≠ 0 then
    .error "`num_heads` must be divisible by `num_shards`"
  else if config.num_key_value_heads % world_size ≠ 0 then
    .error "`num_key_value_heads` must be divisible by `num_shards`"
  else
    let nh := num_heads / world_size
    let kvh := config.num_key_value_heads / world_size
    let num_groups := nh / kvh
    .ok { num_heads := nh
          head_size := head_size
          num_key_value_heads := kvh
          softmax_scale := softmax_scale
          num_groups := num_groups
          kv_head_mapping := (List.range kvh).flatMap fun i => List.replicate num_groups i }

/-- KV cache: a slot-indexed partial map to stored (key, value) entries;
the tensor contents of one token's key/value are abstracted to `Int`. -/
def KVCacheM : Type := Nat → Option (Int × Int)

/-- `kv_cache.store(key, value, slots)`: write token `i`'s key/value into
the cache cell `slots[i]` (later writes to a duplicated slot win, as for
an indexed tensor write). -/
def KVCacheM.store (cache : KVCacheM) (keys values : List Int) (slots : List Nat) :
    KVCacheM :=
  (slots.zip (keys.zip values)).foldl
    (fun c p => fun s => if s = p.1 then some p.2 else c s) cache

/-- One attention-kernel invocation as issued by the forward pass: the
dense prefill kernel or the paged decode kernel, together with the cache
state and parameters it receives. -/
inductive AttnKernelCall where
  | prefillKernel (cache : KVCacheM) (scale : AttnScale)
  | decodeKernel (cache : KVCacheM) (headMapping : List Nat) (scale : AttnScale)

/-- The cache state the attention kernel reads. -/
def AttnKernelCall.cacheArg : AttnKernelCall → KVCacheM
  | .prefillKernel c _ => c
  | .decodeKernel c _ _ => c

/-- The softmax scale the attention kernel receives. -/
def AttnKernelCall.scaleArg : AttnKernelCall → AttnScale
  | .prefillKernel _ s => s
  | .decodeKernel _ _ s => s

/-- The `kv_head_mapping` argument (decode only). -/
def AttnKernelCall.headMappingArg : AttnKernelCall → Option (List Nat)
  | .prefillKernel _ _ => none
  | .decodeKernel _ hm _ => some hm

/-- Result of one `FlashLlamaAttention.forward`: the cache after the
`kv_cache.store` call and the attention-kernel invocation that follows. -/
structure AttnForwardTrace where
  cacheAfterStore : KVCacheM
  call : AttnKernelCall

/-- Shallow embedding of `FlashLlamaAttention.forward`: after projection
and rotary (abstracted into the per-token `keys`/`values`), the new
key/value pairs are stored at `slots`, then either the dense prefill
kernel (when `cu_seqlen_prefill` is supplied) or the paged decode kernel
runs against the updated cache. -/
def FlashLlamaAttentionM.forward (layer : FlashLlamaAttentionM) (cache : KVCacheM)
    (keys values : List Int) (slots : List Nat)
    (cu_seqlen_prefill : Option (List Nat)) : AttnForwardTrace :=
  let cache2 := cache.store keys values slots
  match cu_seqlen_prefill with
  | some _ => ⟨cache2, .prefillKernel cache2 layer.softmax_scale⟩
  | none => ⟨cache2, .decodeKernel cache2 layer.kv_head_mapping layer.softmax_scale⟩

/- ------------------------------------------------------------------ -/
/- FlashLlamaLayer (flash_llama_modeling.py)                          -/
/- ------------------------------------------------------------------ -/

/-- One decoder layer, with the norm / attention / MLP sub-modules kept
abstract (they live outside the shown forward composition): a fused norm
takes `(x, residual?)` and returns `(normed, pre-norm sum)`.  `M` is the
scalar type of the optional `residual_multiplier`. -/
structure FlashLlamaLayerM (T M : Type) where
  input_layernorm : T → Option T → T × T
  self_attn : T → T
  post_attention_layernorm : T → T → T × T
  mlp : T → T
  residual_multiplier : Option M

/-- Shallow embedding of `FlashLlamaLayer.forward` (`smul` is tensor-by-
scalar multiplication, used by the `attn_output *= residual_multiplier`
lines). -/
def FlashLlamaLayerM.forward {T M : Type} (L : FlashLlamaLayerM T M)
    (smul : M → T → T) (hidden_states : T) (residual : Option T) : T × T :=
  let nr := L.input_layernorm hidden_states residual
  let attn_output0 := L.self_attn nr.1
  let attn_output :=
    match L.residual_multiplier with
    | some m => smul m attn_output0
    | none => attn_output0
  let na := L.post_attention_layernorm attn_output nr.2
  let mlp_output0 := L.mlp na.1
  let mlp_output :=
    match L.residual_multiplier with
    | some m => smul m mlp_output0
    | none => mlp_output0
  (mlp_output, na.2)

/-- Modelled from the spec (§4.6) for the refinement claim: `normed,
residual = preNorm(input, running_residual)`; `attn_out =
Attention(normed)`; optional residual-multiplier scaling; `normed2,
residual = postNorm(attn_out, residual)`; `mlp_out = MLP(normed2)`; same
optional scaling; return `(mlp_out, residual)`. -/
def specDecoderStep {T M : Type} (preNorm : T → Option T → T × T)
    (attention : T → T) (postNorm : T → T → T × T) (mlpOrMoe : T → T)
    (multiplier : Option M) (smul : M → T → T)
    (input : T) (running_residual : Option T) : T × T :=
  let p := preNorm input running_residual
  let attn_out := attention p.1
  let attn_scaled :=
    match multiplier with
    | some m => smul m attn_out
    | none => attn_out
  let q := postNorm attn_scaled p.2
  let mlp_out := mlpOrMoe q.1
  let mlp_scaled :=
    match multiplier with
    | some m => smul m mlp_out
    | none => mlp_out
  (mlp_scaled, q.2)

/- ------------------------------------------------------------------ -/
/- Sliding-window check in get_model (models/__init__.py)             -/
/- ------------------------------------------------------------------ -/

/-- The sliding-window raise condition of `get_model`:
`sliding_window` is read from the config (absent/null normalised to `-1`),
and a `ValueError` is raised iff the window is in use
(`sliding_window != -1`), `max_input_tokens` exceeds it, and the backend
does not support windowing. -/
def getModelSlidingWindowError (sliding_window_cfg max_input_tokens : Option Int)
    (supports_windowing : Bool) : Bool :=
  let sliding_window : Int :=
    match sliding_window_cfg with
    | some v => v
    | none => -1
  let use_sliding_window : Bool := sliding_window != -1
  let needs_sliding_window : Bool :=
    match max_input_tokens with
    | some m => sliding_window < m
    | none => false
  use_sliding_window && needs_sliding_window && !supports_windowing

/-- `get_model`, reduced to the sliding-window gate: it raises
(`.error`) before any model is constructed, otherwise model selection
proceeds (`.ok`). -/
def getModelSlidingWindowGate (sliding_window_cfg max_input_tokens : Option Int)
    (supports_windowing : Bool) : Except String Unit :=
  if getModelSlidingWindowError sliding_window_cfg max_input_tokens supports_windowing then
    .error "The backend does not support sliding window attention"
  else
    .ok ()

/- ------------------------------------------------------------------ -/
/- Vision-tower attention mask (qwen2_vl.py, Qwen2VLAttention.forward) -/
/- ------------------------------------------------------------------ -/

/-- `torch.zeros([1, max_seqlen, max_seqlen], dtype=bool)`: the freshly
allocated mask; every entry starts as `False` (nothing may attend). -/
def emptyMask : Nat → Nat → Bool := fun _ _ => false

/-- `attention_mask[:, lo:hi, lo:hi] = True` on a `[1, n, n]` tensor:
Python slice assignment silently clips `lo:hi` to the allocated extent
`n`, so only entries with both coordinates in `[lo, min hi n)` are set. -/
def setBlockTrue (n : Nat) (m : Nat → Nat → Bool) (lo hi : Nat) : Nat → Nat → Bool :=
  fun i j => if (lo ≤ i ∧ i < min hi n) ∧ (lo ≤ j ∧ j < min hi n) then true else m i j

/-- The consecutive pairs `(cu[i-1], cu[i])` visited by
`for i in range(1, len(cu_seqlens))`. -/
def consecutivePairs : List Nat → List (Nat × Nat)
  | a :: b :: rest => (a, b) :: consecutivePairs (b :: rest)
  | _ => []

/-- Shallow embedding of the mask-building loop of
`Qwen2VLAttention.forward`: allocate a `[1, max_seqlen, max_seqlen]`
all-`False` mask (the vision tower passes `max_seqlen =
max(cu_seqlens[1:] - cu_seqlens[:-1])`, the largest single segment) and
set each `cu_seqlens`-delimited square block to `True`; slice writes are
clipped to the allocated extent. -/
def visionAttentionMask (cu_seqlens : List Nat) (max_seqlen : Nat) :
    Nat → Nat → Bool :=
  (consecutivePairs cu_seqlens).foldl
    (fun m p => setBlockTrue max_seqlen m p.1 p.2) emptyMask

/-- Positions `i` and `j` lie in the same `cu_seqlens` segment. -/
def sameSegment (cu_seqlens : List Nat) (i j : Nat) : Prop :=
  ∃ k, k + 1 < cu_seqlens.length ∧
    cu_seqlens.getD k 0 ≤ i ∧ i < cu_seqlens.getD (k + 1) 0 ∧
    cu_seqlens.getD k 0 ≤ j ∧ j < cu_seqlens.getD (k + 1) 0

/- ------------------------------------------------------------------ -/
/- Structured multimodal inputs (for the row-count invariant)         -/
/- ------------------------------------------------------------------ -/

/-- One vision segment of a well-formed multimodal prompt: the text run
before it, the vision tokens between its start/end markers, and its
`(t, h, w)` grid. -/
structure VisSeg where
  pre : List Int
  vis : List Int
  grid : Int × Int × Int

/-- The tokens one segment contributes: text run, start marker, vision
run, end marker. -/
def VisSeg.tokens (startTok endTok : Int) (sg : VisSeg) : List Int :=
  sg.pre ++ startTok :: (sg.vis ++ [endTok])

/-- A full multimodal prompt: the segments in order, then trailing text. -/
def mkVLInput (startTok endTok : Int) (segs : List VisSeg) (trailing : List Int) :
    List Int :=
  (segs.map (VisSeg.tokens startTok endTok)).flatten ++ trailing

/-- Expected indices of the vision-start markers in `mkVLInput`, starting
at running offset `i`. -/
def startsIdx : List VisSeg → Int → List Int
  | [], _ => []
  | sg :: rest, i =>
    (i + sg.pre.length) ::
      startsIdx rest (i + sg.pre.length + 1 + sg.vis.length + 1)

/-- Expected indices of the vision-end markers in `mkVLInput`, starting at
running offset `i`. -/
def endsIdx : List VisSeg → Int → List Int
  | [], _ => []
  | sg :: rest, i =>
    (i + sg.pre.length + 1 + sg.vis.length) ::
      endsIdx rest (i + sg.pre.length + 1 + sg.vis.length + 1)

/-- The number of (merged) vision tokens demanded by a grid under
`spatial_merge_size = m`: `t * (h // m) * (w // m)`. -/
def gridTokens (grid : Int × Int × Int) (m : Int) : Nat :=
  grid.1.toNat * (Int.fdiv grid.2.1 m).toNat * (Int.fdiv grid.2.2 m).toNat

/-- Row balance of a `(3, L)` stack: all three rows have equal length. -/
def PosBlock.balanced (b : PosBlock) : Prop :=
  b.hRow.length = b.tRow.length ∧ b.wRow.length = b.tRow.length

/-- Number of columns of a `(3, L)` stack. -/
def PosBlock.ncols (b : PosBlock) : Nat :=
  b.tRow.length

/- ------------------------------------------------------------------ -/
/- Theorems                                                           -/
/- ------------------------------------------------------------------ -/

/-- C1: for the token sequence with one `(t=1,h=2,w=2)` vision segment
preceded by 3 leading tokens (text, text, start marker) and followed by 2
trailing tokens (end marker, text), `get_position_ids` yields `[0,1,2]` on
all axes for the leading tokens, the row-major Cartesian product
`range(1)×range(2)×range(2)` (temporal slowest) offset by 3 on rows 3..6,
and trailing ids continuing from `max(vision ids) + 1 = 5`. -/
theorem claim_C1 :
    get_position_ids [10, 10, 90, 20, 20, 20, 20, 91, 10] (some [(1, 2, 2)]) 1 90 91 =
      some [(0, 0, 0), (1, 1, 1), (2, 2, 2),
            (3, 3, 3), (3, 3, 4), (3, 4, 3), (3, 4, 4),
            (5, 5, 5), (6, 6, 6)] := by
  decide

/-- C5: with no vision grids supplied, `get_position_ids` returns one row
per input token whose three axes all equal the plain running index. -/
theorem claim_C5 (input_ids : List Int) (m s e : Int) :
    get_position_ids input_ids none m s e =
      some ((List.range input_ids.length).map fun n =>
        (Int.ofNat n, Int.ofNat n, Int.ofNat n)) := by
  simp only [get_position_ids, arangeI, List.map_map]
  rfl

/-- C2: under a positive world size, `FlashLlamaAttention` construction
succeeds iff both `num_attention_heads` and `num_key_value_heads` are
divisible by the process-group size; otherwise it raises (the code's
`ValueError`, the spec's `ConfigurationError`). -/
theorem claim_C2 (config : LlamaConfig) (world_size : Nat) (_hw : 0 < world_size) :
    (∃ layer, mkFlashLlamaAttention config world_size = .ok layer) ↔
      (config.num_attention_heads % world_size = 0 ∧
        config.num_key_value_heads % world_size = 0) := by
  by_cases h1 : config.num_attention_heads % world_size = 0
  · by_cases h2 : config.num_key_value_heads % world_size = 0
    · simp [mkFlashLlamaAttention, h1, h2]
    · simp [mkFlashLlamaAttention, h1, h2]
  · simp [mkFlashLlamaAttention, h1]

/-- Witness for C2 at `heads = 8`, `kv_heads = 4`, `world_size = 2`. -/
theorem claim_C2_witness :
    0 < 2 ∧
      ((∃ layer, mkFlashLlamaAttention ⟨8, 64, 4, none⟩ 2 = .ok layer) ↔
        (8 % 2 = 0 ∧ 4 % 2 = 0)) :=
  ⟨by decide, claim_C2 ⟨8, 64, 4, none⟩ 2 (by decide)⟩

/-- C7: the softmax scale fixed at construction is `head_dim ** -0.5`
with `head_dim = hidden_size / num_attention_heads` unless the config
provides `attention_multiplier`, in which case that multiplier is used;
and every forward call, prefill or decode, passes exactly this
construction-time scale to its attention kernel. -/

theorem claim_C7 (config : LlamaConfig) (world_size : Nat)
    (layer : FlashLlamaAttentionM)
    (h : mkFlashLlamaAttention config world_size = .ok layer) :
    layer.softmax_scale =
      (match config.attention_multiplier with
        | some m => AttnScale.mult m
        | none => AttnScale.invSqrt (config.hidden_size / config.num_attention_heads)) ∧
    ∀ cache keys values slots cu_seqlen_prefill,
      (layer.forward cache keys values slots cu_seqlen_prefill).call.scaleArg =
        layer.softmax_scale := by
  by_cases h1 : config.num_attention_heads % world_size = 0
  · by_cases h2 : config.num_key_value_heads % world_size = 0
    · simp only [mkFlashLlamaAttention, h1, h2, ne_eq, not_true_eq_false,
        if_false, ite_false, ite_true, if_true] at h
      injection h with h'
      subst h'
      refine ⟨rfl, ?_⟩
      intro cache keys values slots cu
      cases cu <;> rfl
    · simp [mkFlashLlamaAttention, h1, h2] at h
  · simp [mkFlashLlamaAttention, h1] at h

theorem claim_C7_witness :
    (⟨8, 8, 8, AttnScale.invSqrt 8, 1,
        [0, 1, 2, 3, 4, 5, 6, 7]⟩ : FlashLlamaAttentionM).softmax_scale =
      (match (none : Option Rat) with
        | some m => AttnScale.mult m
        | none => AttnScale.invSqrt (64 / 8)) ∧
    ∀ cache keys values slots cu_seqlen_prefill,
      ((⟨8, 8, 8, AttnScale.invSqrt 8, 1,
          [0, 1, 2, 3, 4, 5, 6, 7]⟩ : FlashLlamaAttentionM).forward
            cache keys values slots cu_seqlen_prefill).call.scaleArg =
        (⟨8, 8, 8, AttnScale.invSqrt 8, 1,
          [0, 1, 2, 3, 4, 5, 6, 7]⟩ : FlashLlamaAttentionM).softmax_scale :=
  claim_C7 ⟨8, 64, 8, none⟩ 1 _ (by rfl)

theorem range_flatMap_replicate (kv g : Nat) :
    ((List.range kv).flatMap fun i => List.replicate g i) =
      (List.range (kv * g)).map (· / g) := by
  induction kv with
  | zero => simp
  | succ n ih =>
    rw [List.range_succ, List.flatMap_append, ih, Nat.succ_mul, List.range_add,
      List.map_append]
    congr 1
    rw [List.map_map]
    rcases Nat.eq_zero_or_pos g with hg | hg
    · subst hg; simp
    · have hmap : List.map ((fun x => x / g) ∘ fun x => n * g + x) (List.range g) =
          List.map (fun _ => n) (List.range g) := by
        apply List.map_congr_left
        intro j hj
        rw [List.mem_range] at hj
        simp only [Function.comp_apply]
        rw [Nat.mul_comm n g, Nat.mul_add_div hg, Nat.div_eq_of_lt hj, Nat.add_zero]
      rw [hmap]
      simp

/-- C4: when the per-rank KV-head count divides the per-rank query-head
count, the head-mapping table built by the constructor has one entry per
query head, maps query head `q` to KV head `q / (num_heads/num_kv_heads)`
(contiguous groups), and the very same table is the one handed to every
decode-mode attention call. -/
theorem claim_C4 (config : LlamaConfig) (world_size : Nat)
    (layer : FlashLlamaAttentionM)
    (h : mkFlashLlamaAttention config world_size = .ok layer)
    (hdvd : layer.num_key_value_heads ∣ layer.num_heads) :
    layer.kv_head_mapping.length = layer.num_heads ∧
    (∀ q, q < layer.num_heads →
        layer.kv_head_mapping.getD q 0 =
          q / (layer.num_heads / layer.num_key_value_heads)) ∧
    (∀ cache keys values slots,
        (layer.forward cache keys values slots none).call.headMappingArg =
          some layer.kv_head_mapping) := by
  by_cases h1 : config.num_attention_heads % world_size = 0
  · by_cases h2 : config.num_key_value_heads % world_size = 0
    · simp only [mkFlashLlamaAttention, h1, h2, ne_eq, not_true_eq_false, if_false,
        ite_false, ite_true, if_true] at h
      injection h with h'
      subst h'
      simp only at hdvd ⊢
      refine ⟨?_, ?_, ?_⟩
      · rw [range_flatMap_replicate, List.length_map, List.length_range]
        exact Nat.mul_div_cancel' hdvd
      · intro q hq
        rw [range_flatMap_replicate]
        have hq' : q < (config.num_key_value_heads / world_size) *
            (config.num_attention_heads / world_size /
              (config.num_key_value_heads / world_size)) := by
          rw [Nat.mul_div_cancel' hdvd]
          exact hq
        have hlen : q < ((List.range ((config.num_key_value_heads / world_size) *
            (config.num_attention_heads / world_size /
              (config.num_key_value_heads / world_size)))).map
                (· / (config.num_attention_heads / world_size /
                  (config.num_key_value_heads / world_size)))).length := by
          simpa using hq'
        rw [List.getD_eq_getElem _ _ hlen]
        simp
      · intro cache keys values slots
        rfl
    · simp [mkFlashLlamaAttention, h1, h2] at h
  · simp [mkFlashLlamaAttention, h1] at h

/-- Witness for C4 at `heads = 8`, `kv_heads = 2`, `world_size = 1`
(per-rank `2 ∣ 8`, groups of size 4). -/
theorem claim_C4_witness :
    (⟨8, 8, 2, AttnScale.invSqrt 8, 4,
        [0, 0, 0, 0, 1, 1, 1, 1]⟩ : FlashLlamaAttentionM).kv_head_mapping.length =
      (⟨8, 8, 2, AttnScale.invSqrt 8, 4,
        [0, 0, 0, 0, 1, 1, 1, 1]⟩ : FlashLlamaAttentionM).num_heads ∧
    (∀ q, q < (⟨8, 8, 2, AttnScale.invSqrt 8, 4,
        [0, 0, 0, 0, 1, 1, 1, 1]⟩ : FlashLlamaAttentionM).num_heads →
      (⟨8, 8, 2, AttnScale.invSqrt 8, 4,
        [0, 0, 0, 0, 1, 1, 1, 1]⟩ : FlashLlamaAttentionM).kv_head_mapping.getD q 0 =
        q / ((⟨8, 8, 2, AttnScale.invSqrt 8, 4,
          [0, 0, 0, 0, 1, 1, 1, 1]⟩ : FlashLlamaAttentionM).num_heads /
            (⟨8, 8, 2, AttnScale.invSqrt 8, 4,
              [0, 0, 0, 0, 1, 1, 1, 1]⟩ : FlashLlamaAttentionM).num_key_value_heads)) ∧
    (∀ cache keys values slots,
        ((⟨8, 8, 2, AttnScale.invSqrt 8, 4,
            [0, 0, 0, 0, 1, 1, 1, 1]⟩ : FlashLlamaAttentionM).forward
              cache keys values slots none).call.headMappingArg =
          some (⟨8, 8, 2, AttnScale.invSqrt 8, 4,
            [0, 0, 0, 0, 1, 1, 1, 1]⟩ : FlashLlamaAttentionM).kv_head_mapping) :=
  claim_C4 ⟨8, 64, 2, none⟩ 1 _ (by rfl) (by decide)

/-- A slot-map fold leaves untouched any slot that none of the written
pairs names. -/
theorem store_foldl_not_mem (ps : List (Nat × (Int × Int))) (c : KVCacheM) (s : Nat)
    (h : s ∉ ps.map Prod.fst) :
    (ps.foldl (fun c p => fun x => if x = p.1 then some p.2 else c x) c) s = c s := by
  induction ps generalizing c with
  | nil => rfl
  | cons p rest ih =>
    simp only [List.map_cons, List.mem_cons, not_or] at h
    rw [List.foldl_cons, ih _ h.2]
    simp [h.1]

/-- After `store`, reading back any of the written slots yields exactly
the key/value pair written there (slot exclusivity per token assumed, as
the serving layer guarantees). -/
theorem store_getD (cache : KVCacheM) (keys values : List Int) (slots : List Nat)
    (hnd : slots.Nodup) (hk : keys.length = slots.length)
    (hv : values.length = slots.length) (i : Nat) (hi : i < slots.length) :
    cache.store keys values slots (slots.getD i 0) =
      some (keys.getD i 0, values.getD i 0) := by
  induction slots generalizing keys values cache i with
  | nil => exact absurd hi (by simp)
  | cons s ss ih =>
    cases keys with
    | nil => exact absurd hk (by simp)
    | cons k ks =>
      cases values with
      | nil => exact absurd hv (by simp)
      | cons v vs =>
        simp only [List.length_cons, Nat.add_right_cancel_iff] at hk hv
        rw [List.nodup_cons] at hnd
        cases i with
        | zero =>
          show KVCacheM.store cache (k :: ks) (v :: vs) (s :: ss) s = some (k, v)
          unfold KVCacheM.store
          rw [List.zip_cons_cons, List.zip_cons_cons, List.foldl_cons]
          have hmem : s ∉ ((ss.zip (ks.zip vs)).map Prod.fst) := by
            rw [List.map_fst_zip]
            · exact hnd.1
            · rw [List.length_zip, hk, hv]
              simp
          exact (store_foldl_not_mem _ _ s hmem).trans (by simp)
        | succ j =>
          have hj : j < ss.length := by
            simpa using hi
          show KVCacheM.store cache (k :: ks) (v :: vs) (s :: ss) (ss.getD j 0) =
            some (ks.getD j 0, vs.getD j 0)
          unfold KVCacheM.store
          rw [List.zip_cons_cons, List.zip_cons_cons, List.foldl_cons]
          exact ih _ ks vs hnd.2 hk hv j hj

/-- C3: in every attention forward call the cache store of the new
tokens' keys/values precedes the attention read: both the dense prefill
kernel and the paged decode kernel receive the already-updated cache, in
which every supplied slot holds the corresponding new key/value pair. -/
theorem claim_C3 (layer : FlashLlamaAttentionM) (cache : KVCacheM)
    (keys values : List Int) (slots : List Nat)
    (cu_seqlen_prefill : Option (List Nat))
    (hnd : slots.Nodup) (hk : keys.length = slots.length)
    (hv : values.length = slots.length) (i : Nat) (hi : i < slots.length) :
    (layer.forward cache keys values slots cu_seqlen_prefill).call.cacheArg =
      cache.store keys values slots ∧
    (layer.forward cache keys values slots cu_seqlen_prefill).call.cacheArg
        (slots.getD i 0) =
      some (keys.getD i 0, values.getD i 0) := by
  have harg : (layer.forward cache keys values slots cu_seqlen_prefill).call.cacheArg =
      cache.store keys values slots := by
    cases cu_seqlen_prefill <;> rfl
  exact ⟨harg, by rw [harg]; exact store_getD cache keys values slots hnd hk hv i hi⟩

/-- Witness for C3: a decode-mode forward with one token stored at slot 3. -/
theorem claim_C3_witness :
    (((⟨1, 1, 1, AttnScale.invSqrt 1, 1, [0]⟩ : FlashLlamaAttentionM).forward
          (fun _ => none) [5] [7] [3] none).call.cacheArg =
        KVCacheM.store (fun _ => none) [5] [7] [3]) ∧
    ((⟨1, 1, 1, AttnScale.invSqrt 1, 1, [0]⟩ : FlashLlamaAttentionM).forward
          (fun _ => none) [5] [7] [3] none).call.cacheArg ([3].getD 0 0) =
      some ([5].getD 0 0, [7].getD 0 0) :=
  claim_C3 ⟨1, 1, 1, AttnScale.invSqrt 1, 1, [0]⟩ (fun _ => none) [5] [7] [3] none
    (by decide) (by decide) (by decide) 0 (by decide)

/-- C8: `FlashLlamaLayer.forward` refines the spec's decoder-layer
composition — pre-norm over (input, running residual), attention on the
normed value, post-norm over (attention output, residual), MLP/MoE on the
second normed value, returning `(mlp_output, residual)`, with both the
attention and MLP outputs scaled by the residual multiplier exactly when
the configuration defines one. -/
theorem claim_C8 {T M : Type} (L : FlashLlamaLayerM T M) (smul : M → T → T)
    (hidden_states : T) (residual : Option T) :
    L.forward smul hidden_states residual =
      specDecoderStep L.input_layernorm L.self_attn L.post_attention_layernorm
        L.mlp L.residual_multiplier smul hidden_states residual := by
  rfl

/-- C6: `get_model` raises the sliding-window error exactly when the
config carries a sliding window other than `-1`, `max_input_tokens` is
supplied and exceeds it, and the backend does not support windowing; if
any of these fails, model selection passes the gate. -/
theorem claim_C6 (sliding_window_cfg max_input_tokens : Option Int)
    (supports_windowing : Bool) :
    (∃ e, getModelSlidingWindowGate sliding_window_cfg max_input_tokens
        supports_windowing = .error e) ↔
      ((∃ v, sliding_window_cfg = some v ∧ v ≠ -1 ∧
          ∃ m, max_input_tokens = some m ∧ v < m) ∧
        supports_windowing = false) := by
  cases sliding_window_cfg with
  | none =>
    simp [getModelSlidingWindowGate, getModelSlidingWindowError]
  | some v =>
    cases max_input_tokens with
    | none =>
      simp [getModelSlidingWindowGate, getModelSlidingWindowError]
    | some m =>
      by_cases hv : v = -1
      · subst hv
        simp [getModelSlidingWindowGate, getModelSlidingWindowError]
      · by_cases hm : v < m
        · cases supports_windowing <;>
            simp [getModelSlidingWindowGate, getModelSlidingWindowError, hv, hm]
        · simp [getModelSlidingWindowGate, getModelSlidingWindowError, hv, hm]

/-- A fold of clipped square-block writes yields `true` exactly where the
initial mask was `true` or some written block, clipped to the extent `n`,
covers both coordinates. -/
theorem foldl_setBlockTrue (n : Nat) (ps : List (Nat × Nat))
    (m0 : Nat → Nat → Bool) (i j : Nat) :
    (ps.foldl (fun m p => setBlockTrue n m p.1 p.2) m0) i j = true ↔
      (m0 i j = true ∨
        ∃ p ∈ ps, p.1 ≤ i ∧ i < min p.2 n ∧ p.1 ≤ j ∧ j < min p.2 n) := by
  induction ps generalizing m0 with
  | nil => simp
  | cons p rest ih =>
    rw [List.foldl_cons, ih]
    unfold setBlockTrue
    by_cases hp : (p.1 ≤ i ∧ i < min p.2 n) ∧ (p.1 ≤ j ∧ j < min p.2 n)
    · simp only [hp, if_true]
      constructor
      · intro _
        exact Or.inr ⟨p, List.mem_cons_self p rest, hp.1.1, hp.1.2, hp.2.1, hp.2.2⟩
      · intro _
        exact Or.inl rfl
    · simp only [hp, if_false]
      constructor
      · rintro (h | ⟨q, hq, hblk⟩)
        · exact Or.inl h
        · exact Or.inr ⟨q, List.mem_cons_of_mem p hq, hblk⟩
      · rintro (h | ⟨q, hq, hblk⟩)
        · exact Or.inl h
        · rcases List.mem_cons.mp hq with rfl | hq'
          · exact absurd ⟨⟨hblk.1, hblk.2.1⟩, ⟨hblk.2.2.1, hblk.2.2.2⟩⟩ hp
          · exact Or.inr ⟨q, hq', hblk⟩

/-- Membership in the consecutive-pair list is indexed adjacency in
`cu_seqlens`. -/
theorem consecutivePairs_mem (cu : List Nat) (p : Nat × Nat) :
    p ∈ consecutivePairs cu ↔
      ∃ k, k + 1 < cu.length ∧ p = (cu.getD k 0, cu.getD (k + 1) 0) := by
  induction cu with
  | nil => simp [consecutivePairs]
  | cons a rest ih =>
    cases rest with
    | nil =>
      simp [consecutivePairs]
    | cons b rest' =>
      unfold consecutivePairs
      rw [List.mem_cons, ih]
      constructor
      · rintro (rfl | ⟨k, hk, rfl⟩)
        · exact ⟨0, by simp, rfl⟩
        · exact ⟨k + 1, by simpa using hk, by simp⟩
      · rintro ⟨k, hk, rfl⟩
        cases k with
        | zero => exact Or.inl rfl
        | succ k' =>
          refine Or.inr ⟨k', ?_, by simp⟩
          simpa using hk

/-- C10 (amended): whenever every `cu_seqlens` block ends within the
allocated extent `max_seqlen` — as holds for single-segment inputs, where
the vision tower's `max_seqlen = max(cu_seqlens[1:] - cu_seqlens[:-1])` is the
segment length itself — the vision-tower attention mask is block-diagonal
and non-causal: attention from `i` to `j` is permitted iff `i` and `j`
fall inside the same `cu_seqlens` segment, bidirectionally and never
across a segment boundary.  With two or more segments the vision tower's
extent is smaller than the total length, the later slice writes are
clipped, and the unamended claim fails. -/
theorem claim_C10 (cu_seqlens : List Nat) (max_seqlen : Nat) (i j : Nat)
    (hfit : ∀ p ∈ consecutivePairs cu_seqlens, p.2 ≤ max_seqlen) :
    (visionAttentionMask cu_seqlens max_seqlen i j = true ↔
      sameSegment cu_seqlens i j) ∧
    visionAttentionMask cu_seqlens max_seqlen i j =
      visionAttentionMask cu_seqlens max_seqlen j i := by
  have key : ∀ x y, visionAttentionMask cu_seqlens max_seqlen x y = true ↔
      sameSegment cu_seqlens x y := by
    intro x y
    unfold visionAttentionMask sameSegment
    rw [foldl_setBlockTrue]
    simp only [emptyMask, Bool.false_eq_true, false_or]
    constructor
    · rintro ⟨p, hp, h1, h2, h3, h4⟩
      obtain ⟨k, hk, rfl⟩ := (consecutivePairs_mem cu_seqlens p).mp hp
      exact ⟨k, hk, h1, lt_of_lt_of_le h2 (Nat.min_le_left _ _),
        h3, lt_of_lt_of_le h4 (Nat.min_le_left _ _)⟩
    · rintro ⟨k, hk, h1, h2, h3, h4⟩
      have hmem : ((cu_seqlens.getD k 0, cu_seqlens.getD (k + 1) 0)) ∈
          consecutivePairs cu_seqlens :=
        (consecutivePairs_mem cu_seqlens _).mpr ⟨k, hk, rfl⟩
      have hle : cu_seqlens.getD (k + 1) 0 ≤ max_seqlen := hfit _ hmem
      exact ⟨(cu_seqlens.getD k 0, cu_seqlens.getD (k + 1) 0), hmem, h1,
        lt_min_iff.mpr ⟨h2, lt_of_lt_of_le h2 hle⟩,
        h3, lt_min_iff.mpr ⟨h4, lt_of_lt_of_le h4 hle⟩⟩
  refine ⟨key i j, ?_⟩
  have hsym : sameSegment cu_seqlens i j ↔ sameSegment cu_seqlens j i := by
    unfold sameSegment
    constructor <;> rintro ⟨k, hk, h1, h2, h3, h4⟩ <;> exact ⟨k, hk, h3, h4, h1, h2⟩
  rcases hb : visionAttentionMask cu_seqlens max_seqlen j i with _ | _
  · rcases hb' : visionAttentionMask cu_seqlens max_seqlen i j with _ | _
    · rfl
    · exact absurd (hb ▸ (key j i).mpr (hsym.mp ((key i j).mp hb'))) (by simp)
  · exact (key i j).mpr (hsym.mpr ((key j i).mp hb))

/-- C10, counterexample to the unamended claim: two segments of length 2
give `cu_seqlens = [0, 2, 4]` and a caller-supplied extent
`max_seqlen = 2`; the second segment's slice `[2:4]` is clipped away
entirely, so position 2 may not even attend to itself although it lies in
the second segment. -/
theorem claim_C10_counterexample :
    visionAttentionMask [0, 2, 4] 2 2 2 = false ∧ sameSegment [0, 2, 4] 2 2 :=
  ⟨by decide, ⟨1, by decide⟩⟩

/-- Witness for the amended C10: one segment of length 2 (extent 2, the
vision tower's value for a single segment), positions 0 and 1. -/
theorem claim_C10_witness :
    ((visionAttentionMask [0, 2] 2 0 1 = true ↔ sameSegment [0, 2] 0 1) ∧
      visionAttentionMask [0, 2] 2 0 1 = visionAttentionMask [0, 2] 2 1 0) :=
  claim_C10 [0, 2] 2 0 1 (by decide)

theorem whereEqAux_append (xs ys : List Int) (v : Int) (i : Int) :
    whereEqAux (xs ++ ys) v i =
      whereEqAux xs v i ++ whereEqAux ys v (i + xs.length) := by
  induction xs generalizing i with
  | nil => simp [whereEqAux]
  | cons x rest ih =>
    by_cases hx : x = v
    · simp only [List.cons_append, whereEqAux, if_pos hx, List.length_cons, List.append_eq]
      rw [ih]
      push_cast
      rw [show i + ((rest.length : Int) + 1) = i + 1 + rest.length from by ring]
    · simp only [List.cons_append, whereEqAux, if_neg hx, List.length_cons, List.append_eq]
      rw [ih]
      push_cast
      rw [show i + ((rest.length : Int) + 1) = i + 1 + rest.length from by ring]

theorem whereEqAux_nil_of_not_mem (xs : List Int) (v : Int) (i : Int) (h : v ∉ xs) :
    whereEqAux xs v i = [] := by
  induction xs generalizing i with
  | nil => rfl
  | cons x rest ih =>
    simp only [List.mem_cons, not_or] at h
    simp only [whereEqAux]
    rw [if_neg fun hx => h.1 hx.symm]
    exact ih _ h.2

theorem mkVLInput_cons (S E : Int) (sg : VisSeg) (rest : List VisSeg)
    (trailing : List Int) :
    mkVLInput S E (sg :: rest) trailing =
      VisSeg.tokens S E sg ++ mkVLInput S E rest trailing := by
  simp [mkVLInput]

theorem whereEqAux_tokens_start (S E : Int) (sg : VisSeg) (i : Int)
    (hSE : S ≠ E) (h1 : S ∉ sg.pre) (h3 : S ∉ sg.vis) :
    whereEqAux (VisSeg.tokens S E sg) S i = [i + sg.pre.length] := by
  unfold VisSeg.tokens
  rw [whereEqAux_append, whereEqAux_nil_of_not_mem _ _ _ h1, List.nil_append]
  simp only [whereEqAux, eq_self_iff_true, if_true]
  rw [whereEqAux_append, whereEqAux_nil_of_not_mem _ _ _ h3, List.nil_append]
  simp only [whereEqAux]
  rw [if_neg (show ¬(E = S) from fun hx => hSE hx.symm)]

theorem whereEqAux_tokens_end (S E : Int) (sg : VisSeg) (i : Int)
    (hSE : S ≠ E) (h2 : E ∉ sg.pre) (h4 : E ∉ sg.vis) :
    whereEqAux (VisSeg.tokens S E sg) E i =
      [i + sg.pre.length + 1 + sg.vis.length] := by
  unfold VisSeg.tokens
  rw [whereEqAux_append, whereEqAux_nil_of_not_mem _ _ _ h2, List.nil_append]
  simp only [whereEqAux]
  rw [if_neg hSE]
  rw [whereEqAux_append, whereEqAux_nil_of_not_mem _ _ _ h4, List.nil_append]
  simp only [whereEqAux, eq_self_iff_true, if_true]

theorem whereEqAux_mkVL_start (S E : Int) (segs : List VisSeg) (trailing : List Int)
    (hSE : S ≠ E)
    (hm : ∀ sg ∈ segs, S ∉ sg.pre ∧ E ∉ sg.pre ∧ S ∉ sg.vis ∧ E ∉ sg.vis)
    (ht : S ∉ trailing) (i : Int) :
    whereEqAux (mkVLInput S E segs trailing) S i = startsIdx segs i := by
  induction segs generalizing i with
  | nil =>
    exact whereEqAux_nil_of_not_mem _ _ _ ht
  | cons sg rest ih =>
    have hsg := hm sg (List.mem_cons_self sg rest)
    rw [mkVLInput_cons, whereEqAux_append,
      whereEqAux_tokens_start S E sg i hSE hsg.1 hsg.2.2.1,
      ih (fun s hs => hm s (List.mem_cons_of_mem sg hs))]
    have harith : i + ((VisSeg.tokens S E sg).length : Int) =
        i + sg.pre.length + 1 + sg.vis.length + 1 := by
      simp only [VisSeg.tokens, List.length_append, List.length_cons, List.length_nil]
      push_cast
      ring
    rw [harith, List.singleton_append]
    rfl

theorem whereEqAux_mkVL_end (S E : Int) (segs : List VisSeg) (trailing : List Int)
    (hSE : S ≠ E)
    (hm : ∀ sg ∈ segs, S ∉ sg.pre ∧ E ∉ sg.pre ∧ S ∉ sg.vis ∧ E ∉ sg.vis)
    (ht : E ∉ trailing) (i : Int) :
    whereEqAux (mkVLInput S E segs trailing) E i = endsIdx segs i := by
  induction segs generalizing i with
  | nil =>
    exact whereEqAux_nil_of_not_mem _ _ _ ht
  | cons sg rest ih =>
    have hsg := hm sg (List.mem_cons_self sg rest)
    rw [mkVLInput_cons, whereEqAux_append,
      whereEqAux_tokens_end S E sg i hSE hsg.2.1 hsg.2.2.2,
      ih (fun s hs => hm s (List.mem_cons_of_mem sg hs))]
    have harith : i + ((VisSeg.tokens S E sg).length : Int) =
        i + sg.pre.length + 1 + sg.vis.length + 1 := by
      simp only [VisSeg.tokens, List.length_append, List.length_cons, List.length_nil]
      push_cast
      ring
    rw [harith, List.singleton_append]
    rfl

theorem startsIdx_length (segs : List VisSeg) (i : Int) :
    (startsIdx segs i).length = segs.length := by
  induction segs generalizing i with
  | nil => rfl
  | cons sg rest ih => simp [startsIdx, ih]

theorem endsIdx_length (segs : List VisSeg) (i : Int) :
    (endsIdx segs i).length = segs.length := by
  induction segs generalizing i with
  | nil => rfl
  | cons sg rest ih => simp [endsIdx, ih]

theorem endsIdx_ne_nil (sg : VisSeg) (rest : List VisSeg) (i : Int) :
    endsIdx (sg :: rest) i ≠ [] := by
  simp [endsIdx]

theorem tl_char (sg : VisSeg) (rest : List VisSeg) (i prev : Int) :
    ((startsIdx (sg :: rest) i).zip (prev :: (endsIdx (sg :: rest) i).dropLast)).map
        (fun p => p.1 - p.2 + 1) =
      (i + sg.pre.length - prev + 1) ::
        rest.map (fun sg' => (sg'.pre.length : Int) + 2) := by
  induction rest generalizing sg i prev with
  | nil =>
    simp [startsIdx, endsIdx]
  | cons sg' rest' ih =>
    rw [show startsIdx (sg :: sg' :: rest') i =
        (i + sg.pre.length) ::
          startsIdx (sg' :: rest') (i + sg.pre.length + 1 + sg.vis.length + 1)
      from rfl]
    rw [show endsIdx (sg :: sg' :: rest') i =
        (i + sg.pre.length + 1 + sg.vis.length) ::
          endsIdx (sg' :: rest') (i + sg.pre.length + 1 + sg.vis.length + 1)
      from rfl]
    rw [List.dropLast_cons_of_ne_nil (endsIdx_ne_nil sg' rest' _)]
    rw [List.zip_cons_cons, List.map_cons]
    rw [ih sg' _ (i + sg.pre.length + 1 + sg.vis.length)]
    congr 2
    ring

theorem getLast_quot_cons_of_ne_nil {A : Type} (a : A) (l : List A) (h : l ≠ []) :
    (a :: l).getLast? = l.getLast? := by
  cases l with
  | nil => exact absurd rfl h
  | cons b t => rw [List.getLast?_cons_cons]

theorem endsIdx_getLastQ (sg : VisSeg) (rest : List VisSeg) (i : Int) :
    (endsIdx (sg :: rest) i).getLast? =
      some (i + (((sg :: rest).map
        (fun s => (s.pre.length : Int) + s.vis.length + 2)).sum) - 1) := by
  induction rest generalizing sg i with
  | nil =>
    rw [show endsIdx [sg] i = [i + sg.pre.length + 1 + sg.vis.length] from rfl]
    simp only [List.map_cons, List.map_nil, List.sum_cons, List.sum_nil]
    rw [show ([i + (sg.pre.length : Int) + 1 + sg.vis.length]).getLast? =
        some (i + (sg.pre.length : Int) + 1 + sg.vis.length) from rfl]
    congr 1
    ring
  | cons sg' rest' ih =>
    rw [show endsIdx (sg :: sg' :: rest') i =
        (i + sg.pre.length + 1 + sg.vis.length) ::
          endsIdx (sg' :: rest') (i + sg.pre.length + 1 + sg.vis.length + 1)
      from rfl]
    rw [getLast_quot_cons_of_ne_nil _ _ (endsIdx_ne_nil sg' rest' _)]
    rw [ih sg' _]
    simp only [List.map_cons, List.sum_cons]
    congr 1
    ring

theorem toNat_mul_of_nonneg (a b : Int) (ha : 0 ≤ a) (hb : 0 ≤ b) :
    (a * b).toNat = a.toNat * b.toNat := by
  rcases Int.eq_ofNat_of_zero_le ha with ⟨m, rfl⟩
  rcases Int.eq_ofNat_of_zero_le hb with ⟨n, rfl⟩
  rfl

theorem arangeI_length (n : Int) : (arangeI n).length = n.toNat := by
  simp [arangeI]

theorem repeatInterleaveI_length (xs : List Int) (k : Nat) :
    (repeatInterleaveI xs k).length = xs.length * k := by
  induction xs with
  | nil => simp [repeatInterleaveI]
  | cons x rest ih =>
    simp only [repeatInterleaveI, List.flatMap_cons, List.length_append,
      List.length_replicate] at *
    rw [ih]
    simp [List.length_cons]
    ring

theorem tileI_length (xs : List Int) (k : Nat) :
    (tileI xs k).length = k * xs.length := by
  induction k with
  | zero => simp [tileI]
  | succ n ih =>
    simp only [tileI, List.replicate_succ, List.flatten_cons, List.length_append] at *
    rw [ih]
    ring

theorem textBlock_balanced (len offset : Int) : (textBlock len offset).balanced :=
  ⟨rfl, rfl⟩

theorem textBlock_ncols (len offset : Int) :
    (textBlock len offset).ncols = len.toNat := by
  simp [textBlock, PosBlock.ncols, arangeI]

theorem visionBlock_shape (grid : Int × Int × Int) (m offset : Int)
    (hm : 0 < m) (ht : 0 ≤ grid.1) (hh : 0 ≤ grid.2.1) (hw : 0 ≤ grid.2.2) :
    (visionBlock grid m offset).balanced ∧
      (visionBlock grid m offset).ncols = gridTokens grid m := by
  have hh' : 0 ≤ Int.fdiv grid.2.1 m := Int.fdiv_nonneg hh (le_of_lt hm)
  have hw' : 0 ≤ Int.fdiv grid.2.2 m := Int.fdiv_nonneg hw (le_of_lt hm)
  have e1 : (visionBlock grid m offset).tRow.length = gridTokens grid m := by
    simp only [visionBlock, PosBlock.ncols, List.length_map,
      repeatInterleaveI_length, arangeI_length, gridTokens]
    rw [toNat_mul_of_nonneg _ _ hh' hw']
    ring
  have e2 : (visionBlock grid m offset).hRow.length = gridTokens grid m := by
    simp only [visionBlock, PosBlock.ncols, List.length_map, tileI_length,
      repeatInterleaveI_length, arangeI_length, gridTokens]
    exact (Nat.mul_assoc _ _ _).symm
  have e3 : (visionBlock grid m offset).wRow.length = gridTokens grid m := by
    simp only [visionBlock, PosBlock.ncols, List.length_map, tileI_length,
      arangeI_length, gridTokens]
    rw [toNat_mul_of_nonneg _ _ ht hh']
  exact ⟨⟨e2.trans e1.symm, e3.trans e1.symm⟩, e1⟩

theorem blockRows_length (b : PosBlock) (hb : b.balanced) :
    (blockRows b).length = b.ncols := by
  simp [blockRows, List.length_zip, hb.1, hb.2, PosBlock.ncols]

theorem blockCat_shape (bs : List PosBlock) (h : ∀ b ∈ bs, b.balanced) :
    (blockCat bs).balanced ∧
      (blockCat bs).ncols = (bs.map PosBlock.ncols).sum := by
  have et : (blockCat bs).tRow.length = (bs.map PosBlock.ncols).sum := by
    simp only [blockCat, List.length_flatten, List.map_map]
    rfl
  have eh : (blockCat bs).hRow.length = (bs.map PosBlock.ncols).sum := by
    simp only [blockCat, List.length_flatten, List.map_map]
    congr 1
    apply List.map_congr_left
    intro b hb
    exact (h b hb).1
  have ew : (blockCat bs).wRow.length = (bs.map PosBlock.ncols).sum := by
    simp only [blockCat, List.length_flatten, List.map_map]
    congr 1
    apply List.map_congr_left
    intro b hb
    exact (h b hb).2
  exact ⟨⟨eh.trans et.symm, ew.trans et.symm⟩, et⟩

theorem blockMax_isSome (b : PosBlock) (hb : b.tRow ≠ []) :
    ∃ mx, blockMax b = some mx := by
  unfold blockMax
  split
  · rename_i heq
    rcases List.append_eq_nil.mp (List.append_eq_nil.mp heq).1 with ⟨h1, -⟩
    exact absurd h1 hb
  · exact ⟨_, rfl⟩

theorem cumsumAux_length (acc : Int) (xs : List Int) :
    (cumsumAux acc xs).length = xs.length := by
  induction xs generalizing acc with
  | nil => rfl
  | cons x rest ih => simp [cumsumAux, ih]

theorem cumsumI_length (xs : List Int) : (cumsumI xs).length = xs.length :=
  cumsumAux_length 0 xs

theorem bcast2_of_length_eq (f : Int → Int → Int) (xs ys : List Int)
    (h : xs.length = ys.length) :
    bcast2 f xs ys = some ((xs.zip ys).map fun p => f p.1 p.2) := by
  simp [bcast2, h]

theorem bcast2_length (f : Int → Int → Int) (xs ys zs : List Int)
    (h : xs.length = ys.length) (hz : bcast2 f xs ys = some zs) :
    zs.length = xs.length := by
  rw [bcast2_of_length_eq f xs ys h] at hz
  cases hz
  simp [List.length_zip, h]

theorem mem_of_getLastQ {A : Type} (l : List A) (x : A) (h : l.getLast? = some x) :
    x ∈ l := by
  obtain ⟨hne, rfl⟩ :=
    List.mem_getLast?_eq_getLast (show x ∈ l.getLast? from h)
  exact List.getLast_mem hne

theorem interleave_getLastQ (as bs : List PosBlock) (h : as.length = bs.length)
    (hne : bs ≠ []) :
    ((as.zip bs).flatMap fun p => [p.1, p.2]).getLast? = bs.getLast? := by
  induction as generalizing bs with
  | nil =>
    cases bs with
    | nil => exact absurd rfl hne
    | cons b t => exact absurd h (by simp)
  | cons a as' ih =>
    cases bs with
    | nil => exact absurd h (by simp)
    | cons b bs' =>
      rw [List.zip_cons_cons, List.flatMap_cons]
      cases bs' with
      | nil =>
        have : as' = [] := by
          simpa using h
        subst this
        rfl
      | cons b' bs'' =>
        cases as' with
        | nil => exact absurd h (by simp)
        | cons a' as'' =>
          have hlen : (a' :: as'').length = (b' :: bs'').length := by
            simpa using h
          have hrec := ih (b' :: bs'') hlen (by simp)
          have hne2 : ((a' :: as'').zip (b' :: bs'')).flatMap
              (fun p => [p.1, p.2]) ≠ [] := by
            simp [List.zip_cons_cons, List.flatMap_cons]
          rw [List.getLast?_append_of_ne_nil _ hne2, hrec,
            getLast_quot_cons_of_ne_nil b (b' :: bs'') (by simp)]

theorem interleave_sum (g : PosBlock → Nat) (as bs : List PosBlock)
    (h : as.length = bs.length) :
    (((as.zip bs).flatMap fun p => [p.1, p.2]).map g).sum =
      ((as.map g).sum + (bs.map g).sum) := by
  induction as generalizing bs with
  | nil =>
    cases bs with
    | nil => rfl
    | cons b t => exact absurd h (by simp)
  | cons a as' ih =>
    cases bs with
    | nil => exact absurd h (by simp)
    | cons b bs' =>
      have hlen : as'.length = bs'.length := by simpa using h
      rw [List.zip_cons_cons, List.flatMap_cons, List.map_append, List.sum_append,
        ih bs' hlen]
      simp [List.map_cons, List.sum_cons]
      ring

theorem interleave_mem (as bs : List PosBlock) (x : PosBlock)
    (hx : x ∈ (as.zip bs).flatMap fun p => [p.1, p.2]) : x ∈ as ∨ x ∈ bs := by
  rw [List.mem_flatMap] at hx
  obtain ⟨p, hp, hxp⟩ := hx
  have hmem := List.of_mem_zip hp
  rcases List.mem_cons.mp hxp with rfl | hxp'
  · exact Or.inl hmem.1
  · rcases List.mem_cons.mp hxp' with rfl | hfalse
    · exact Or.inr hmem.2
    · exact absurd hfalse (by simp)

theorem sum_map_addN {A : Type} (l : List A) (f g : A → Nat) :
    (l.map fun x => f x + g x).sum = (l.map f).sum + (l.map g).sum := by
  induction l with
  | nil => rfl
  | cons a t ih =>
    simp only [List.map_cons, List.sum_cons, ih]
    ring

theorem sum_map_constN {A : Type} (l : List A) (c : Nat) :
    (l.map fun _ => c).sum = l.length * c := by
  induction l with
  | nil => simp
  | cons a t ih =>
    simp only [List.map_cons, List.sum_cons, ih, List.length_cons]
    ring

theorem mkVLInput_length (S E : Int) (segs : List VisSeg) (trailing : List Int) :
    (mkVLInput S E segs trailing).length =
      (segs.map fun s => s.pre.length + s.vis.length + 2).sum + trailing.length := by
  induction segs with
  | nil => simp [mkVLInput]
  | cons sg rest ih =>
    rw [mkVLInput_cons, List.length_append, ih]
    simp only [VisSeg.tokens, List.length_append, List.length_cons, List.length_nil,
      List.map_cons, List.sum_cons]
    ring

theorem castSumN {A : Type} (l : List A) (f : A → Nat) :
    (((l.map f).sum : Nat) : Int) = (l.map fun x => ((f x : Nat) : Int)).sum := by
  induction l with
  | nil => rfl
  | cons a t ih =>
    simp only [List.map_cons, List.sum_cons]
    rw [Nat.cast_add, ih]

/-- C9 (amended): for every well-formed multimodal input — markers
properly paired, no marker inside a text or vision run, each vision run
holding exactly `t * (h // merge) * (w // merge)` tokens for its
(nonnegative) grid, and every grid's merged token product positive — the
position-id tensor has exactly one row per input token. -/
theorem claim_C9 (S E : Int) (m : Int) (sg0 : VisSeg) (rest : List VisSeg)
    (trailing : List Int)
    (hSE : S ≠ E) (hm : 0 < m)
    (hmark : ∀ sg ∈ sg0 :: rest, S ∉ sg.pre ∧ E ∉ sg.pre ∧ S ∉ sg.vis ∧ E ∉ sg.vis)
    (htS : S ∉ trailing) (htE : E ∉ trailing)
    (hgrid : ∀ sg ∈ sg0 :: rest, 0 ≤ sg.grid.1 ∧ 0 ≤ sg.grid.2.1 ∧ 0 ≤ sg.grid.2.2)
    (hcount : ∀ sg ∈ sg0 :: rest, sg.vis.length = gridTokens sg.grid m)
    (hpos : ∀ sg ∈ sg0 :: rest, 0 < gridTokens sg.grid m) :
    ∃ out,
      get_position_ids (mkVLInput S E (sg0 :: rest) trailing)
          (some ((sg0 :: rest).map VisSeg.grid)) m S E = some out ∧
        out.length = (mkVLInput S E (sg0 :: rest) trailing).length := by
  have hstarts : whereEq (mkVLInput S E (sg0 :: rest) trailing) S =
      startsIdx (sg0 :: rest) 0 :=
    whereEqAux_mkVL_start S E _ trailing hSE hmark htS 0
  have hends : whereEq (mkVLInput S E (sg0 :: rest) trailing) E =
      endsIdx (sg0 :: rest) 0 :=
    whereEqAux_mkVL_end S E _ trailing hSE hmark htE 0
  simp only [get_position_ids, hstarts, hends]
  rw [if_neg (by simp [startsIdx_length, endsIdx_length])]
  rw [tl_char sg0 rest 0 0]
  rw [bcast2_of_length_eq _ _ _ (by
    simp [List.length_dropLast])]
  rw [Option.some_bind]
  rw [bcast2_of_length_eq _ _ _ (by
    simp [cumsumI_length, List.length_dropLast])]
  rw [Option.some_bind]
  have hkk : (startsIdx (sg0 :: rest) 0).length = rest.length + 1 := by
    simp [startsIdx_length]
  rw [hkk]
  set TL : List Int :=
    (0 + (sg0.pre.length : Int) - 0 + 1) ::
      rest.map (fun sg' => (sg'.pre.length : Int) + 2) with hTL
  set GR : List (Int × Int × Int) := (sg0 :: rest).map VisSeg.grid with hGR
  set VWM : List Int :=
    (0 : Int) :: (GR.dropLast.map fun g => g.2.2.fdiv m) with hVWM
  set VSL : List Int := cumsumI ((VWM.zip TL).map fun p => p.1 + p.2) with hVSL
  set TSL : List Int := (VSL.zip TL).map (fun p => p.1 - p.2) with hTSL
  have hTLlen : TL.length = rest.length + 1 := by simp [hTL]
  have hGRlen : GR.length = rest.length + 1 := by simp [hGR]
  have hVWMlen : VWM.length = rest.length + 1 := by
    simp [hVWM, hGRlen, List.length_dropLast]
  have hVSLlen : VSL.length = rest.length + 1 := by
    simp [hVSL, cumsumI_length, List.length_zip, hVWMlen, hTLlen]
  have hTSLlen : TSL.length = rest.length + 1 := by
    simp [hTSL, List.length_zip, hVSLlen, hTLlen]
  rw [if_pos ⟨le_of_eq hGRlen.symm, le_of_eq hVSLlen.symm, le_of_eq hTSLlen.symm⟩]
  rw [List.take_of_length_le (le_of_eq hTLlen), List.take_of_length_le (le_of_eq hTSLlen),
    List.take_of_length_le (le_of_eq hGRlen), List.take_of_length_le (le_of_eq hVSLlen)]
  set TXT : List PosBlock := (TL.zip TSL).map (fun p => textBlock p.1 p.2) with hTXT
  set LLM : List PosBlock := (GR.zip VSL).map (fun p => visionBlock p.1 m p.2) with hLLM
  have hTXTlen : TXT.length = rest.length + 1 := by
    simp [hTXT, List.length_zip, hTLlen, hTSLlen]
  have hLLMlen : LLM.length = rest.length + 1 := by
    simp [hLLM, List.length_zip, hGRlen, hVSLlen]
  have hLLMne : LLM ≠ [] := by
    intro hnil
    rw [hnil] at hLLMlen
    simp at hLLMlen
  rw [interleave_getLastQ TXT LLM (hTXTlen.trans hLLMlen.symm) hLLMne]
  obtain ⟨lb, hlb⟩ : ∃ lb, LLM.getLast? = some lb := by
    cases hLLMq : LLM.getLast? with
    | none => exact absurd (List.getLast?_eq_none_iff.mp hLLMq) hLLMne
    | some x => exact ⟨x, rfl⟩
  rw [hlb, Option.some_bind]
  have hlbmem : lb ∈ LLM := mem_of_getLastQ LLM lb hlb
  have hlbshape : ∃ sg ∈ (sg0 :: rest), ∃ off, lb = visionBlock sg.grid m off := by
    rw [hLLM] at hlbmem
    obtain ⟨p, hp, hpe⟩ := List.mem_map.mp hlbmem
    have hp1 : p.1 ∈ GR := (List.of_mem_zip hp).1
    rw [hGR] at hp1
    obtain ⟨sg, hsg, hsge⟩ := List.mem_map.mp hp1
    exact ⟨sg, hsg, p.2, by rw [← hpe, ← hsge]⟩
  obtain ⟨sg, hsgmem, off, rfl⟩ := hlbshape
  have hgr := hgrid sg hsgmem
  have hshape := visionBlock_shape sg.grid m off hm hgr.1 hgr.2.1 hgr.2.2
  have htrne : (visionBlock sg.grid m off).tRow ≠ [] := by
    have h1 : (visionBlock sg.grid m off).tRow.length = gridTokens sg.grid m := hshape.2
    have h2 := hpos sg hsgmem
    intro hnil
    rw [hnil] at h1
    simp only [List.length_nil] at h1
    omega
  obtain ⟨mx, hmx⟩ := blockMax_isSome _ htrne
  rw [hmx, Option.some_bind]
  rw [endsIdx_getLastQ sg0 rest 0, Option.some_bind]
  have hsumcast : (((sg0 :: rest).map fun s => (s.pre.length : Int) + s.vis.length + 2).sum) =
      ((((sg0 :: rest).map fun s => s.pre.length + s.vis.length + 2).sum : Nat) : Int) := by
    rw [castSumN]
    apply congrArg List.sum
    apply List.map_congr_left
    intro s hs
    push_cast
    ring
  have hft : Int.ofNat (mkVLInput S E (sg0 :: rest) trailing).length -
      (0 + (((sg0 :: rest).map fun s => (s.pre.length : Int) + s.vis.length + 2).sum) - 1) =
      (trailing.length : Int) + 1 := by
    rw [hsumcast, mkVLInput_length, Int.ofNat_eq_natCast]
    push_cast
    ring
  rw [hft]
  rw [if_pos (by positivity : (0 : Int) < (trailing.length : Int) + 1)]
  refine ⟨_, rfl, ?_⟩
  have hball : ∀ b ∈ ((TXT.zip LLM).flatMap fun p => [p.1, p.2]) ++
      [textBlock ((trailing.length : Int) + 1) (mx + 1)], b.balanced := by
    intro b hb
    rcases List.mem_append.mp hb with hb1 | hb2
    · rcases interleave_mem TXT LLM b hb1 with hbt | hbl
      · rw [hTXT] at hbt
        obtain ⟨p, hp, hpe⟩ := List.mem_map.mp hbt
        rw [← hpe]
        exact textBlock_balanced p.1 p.2
      · rw [hLLM] at hbl
        obtain ⟨p, hp, hpe⟩ := List.mem_map.mp hbl
        have hp1 : p.1 ∈ GR := (List.of_mem_zip hp).1
        rw [hGR] at hp1
        obtain ⟨sg', hsg', hsge⟩ := List.mem_map.mp hp1
        have hg := hgrid sg' hsg'
        rw [← hpe, ← hsge]
        exact (visionBlock_shape sg'.grid m p.2 hm hg.1 hg.2.1 hg.2.2).1
    · rw [List.mem_singleton.mp hb2]
      exact textBlock_balanced _ _
  rw [blockRows_length _ (blockCat_shape _ hball).1, (blockCat_shape _ hball).2]
  rw [List.map_append, List.sum_append]
  rw [interleave_sum PosBlock.ncols TXT LLM (hTXTlen.trans hLLMlen.symm)]
  have hsingle : (([textBlock ((trailing.length : Int) + 1) (mx + 1)]).map
      PosBlock.ncols).sum = trailing.length + 1 := by
    simp only [List.map_cons, List.map_nil, List.sum_cons, List.sum_nil, textBlock_ncols]
    omega
  have hTXTsum : (TXT.map PosBlock.ncols).sum =
      (sg0.pre.length + 1) + (rest.map fun sg' => sg'.pre.length + 2).sum := by
    rw [hTXT, List.map_map]
    have h1 : (TL.zip TSL).map (PosBlock.ncols ∘ fun p => textBlock p.1 p.2) =
        (TL.zip TSL).map (fun p => p.1.toNat) := by
      apply List.map_congr_left
      intro p hp
      exact textBlock_ncols p.1 p.2
    have h2 : ((TL.zip TSL).map Prod.fst) = TL :=
      List.map_fst_zip TL TSL (by rw [hTLlen, hTSLlen])
    rw [h1, show (fun p : Int × Int => p.1.toNat) = (Int.toNat ∘ Prod.fst) from rfl,
      ← List.map_map, h2, hTL, List.map_cons, List.map_map, List.sum_cons]
    have hhead : ((0 : Int) + (sg0.pre.length : Int) - 0 + 1).toNat =
        sg0.pre.length + 1 := by
      omega
    have htail : (rest.map (Int.toNat ∘ fun sg' => (sg'.pre.length : Int) + 2)) =
        rest.map (fun sg' => sg'.pre.length + 2) := by
      apply List.map_congr_left
      intro sg' hsg'
      simp only [Function.comp_apply]
      omega
    rw [hhead, htail]
  have hLLMsum : (LLM.map PosBlock.ncols).sum =
      ((sg0 :: rest).map fun sg' => sg'.vis.length).sum := by
    rw [hLLM, List.map_map]
    have h1 : (GR.zip VSL).map (PosBlock.ncols ∘ fun p => visionBlock p.1 m p.2) =
        (GR.zip VSL).map (fun p => gridTokens p.1 m) := by
      apply List.map_congr_left
      intro p hp
      have hp1 : p.1 ∈ GR := (List.of_mem_zip hp).1
      rw [hGR] at hp1
      obtain ⟨sg', hsg', hsge⟩ := List.mem_map.mp hp1
      have hg := hgrid sg' hsg'
      simp only [Function.comp_apply]
      rw [← hsge]
      exact (visionBlock_shape sg'.grid m p.2 hm hg.1 hg.2.1 hg.2.2).2
    have h2 : ((GR.zip VSL).map Prod.fst) = GR :=
      List.map_fst_zip GR VSL (by rw [hGRlen, hVSLlen])
    rw [h1, show (fun p : (Int × Int × Int) × Int => gridTokens p.1 m) =
        ((fun g => gridTokens g m) ∘ Prod.fst) from rfl,
      ← List.map_map, h2, hGR, List.map_map]
    congr 1
    apply List.map_congr_left
    intro sg' hsg'
    simp only [Function.comp_apply]
    exact (hcount sg' hsg').symm
  rw [hTXTsum, hLLMsum, hsingle, mkVLInput_length]
  simp only [List.map_cons, List.sum_cons]
  rw [sum_map_addN rest (fun sg' => sg'.pre.length) (fun _ => 2),
    sum_map_constN rest 2]
  rw [show (fun s : VisSeg => s.pre.length + s.vis.length + 2) =
      (fun s : VisSeg => (s.pre.length + s.vis.length) + 2) from rfl,
    sum_map_addN rest (fun s => s.pre.length + s.vis.length) (fun _ => 2),
    sum_map_constN rest 2,
    sum_map_addN rest (fun s => s.pre.length) (fun s => s.vis.length)]
  omega

/-- C9, counterexample to the unamended claim: a vision segment whose grid
product is zero (`t = 0`) satisfies the claim's token-count premise with an
empty vision run, yet the builder crashes (`.max()` over an empty tensor)
instead of returning a tensor with one row per token. -/
theorem claim_C9_counterexample :
    ¬ ∃ out, get_position_ids [90, 91] (some [(0, 1, 1)]) 1 90 91 = some out ∧
        out.length = ([(90 : Int), 91]).length := by
  rintro ⟨out, hout, -⟩
  rw [show get_position_ids [90, 91] (some [(0, 1, 1)]) 1 90 91 = none from by decide]
    at hout
  exact Option.noConfusion hout

/-- Witness for the amended C9: one segment of grid `(1, 2, 4)` under
spatial merge 2 (two vision tokens), one leading and one trailing text
token. -/
theorem claim_C9_witness :
    ∃ out,
      get_position_ids
          (mkVLInput 90 91 [⟨[7], [20, 20], (1, 2, 4)⟩] [9])
          (some (([⟨[7], [20, 20], (1, 2, 4)⟩] : List VisSeg).map VisSeg.grid))
          2 90 91 = some out ∧
        out.length = (mkVLInput 90 91 [⟨[7], [20, 20], (1, 2, 4)⟩] [9]).length :=
  claim_C9 90 91 2 ⟨[7], [20, 20], (1, 2, 4)⟩ [] [9]
    (by decide) (by decide) (by decide) (by decide) (by decide)
    (by decide) (by decide) (by decide)
